import Mathlib

set_option maxHeartbeats 1000000

namespace PortfolioSite

/-!
Shallow embedding of the geometry-graph animation core of the PortfolioSite
repository (`src/components/background3d`).  Machine floats are modelled as
exact rationals (`ℚ`) except where an irrational power is computed, which is
modelled over `ℝ`; JS arrays indexed by integers are modelled as total
functions or lists; the stateful pieces are modelled by explicit state
passing.
-/

/-- Mesh geometry as consumed by the background3d components: the `position`
buffer attribute (an ordered list of vertex positions, three floats each,
floats modelled as exact rationals), the optional triangle index buffer, and
the geometry's `uuid` identity string.  A geometry with a missing `position`
attribute is modelled by an empty `positions` list (the code only ever tests
the attribute for absence before reading it). -/
structure Geometry where
  positions : List (ℚ × ℚ × ℚ)
  index : Option (List ℕ)
  uuid : String

/-- Canonical unordered edge key: `const min = a < b ? a : b; const max = a < b ? b : a`
in `addEdge` inside `buildFaceAdjacency` (InteractiveModel.tsx). -/
def edgeKey (a b : ℕ) : ℕ × ℕ :=
  if a < b then (a, b) else (b, a)

/-- State threaded through the adjacency construction: `edgeToFace` models the
JS `Map<string, number>` from canonical edge to the first face that claimed it
(as an association list), and `adjacency` models the `adjacency: number[][]`
array of per-face neighbour lists (total function; unused indices map to `[]`,
matching the initialisation `Array.from(\x7b length: faceCount \x7d, () => [])`). -/
structure AdjState where
  edgeToFace : List ((ℕ × ℕ) × ℕ)
  adjacency : ℕ → List ℕ

/-- `adjacency[i].push(x)` -/
def pushAdj (adj : ℕ → List ℕ) (i x : ℕ) : ℕ → List ℕ :=
  Function.update adj i (adj i ++ [x])

/-- The `addEdge` closure of `buildFaceAdjacency`: first claimant registers the
edge; a later claimant that is a different face is linked bidirectionally with
the registered (first) claimant; a face re-claiming its own edge is ignored.
The map entry is never removed or overwritten. -/
def addEdge (s : AdjState) (a b face : ℕ) : AdjState :=
  let key := edgeKey a b
  match s.edgeToFace.lookup key with
  | none => { s with edgeToFace := (key, face) :: s.edgeToFace }
  | some other =>
    if other = face then s
    else { s with adjacency := pushAdj (pushAdj s.adjacency face other) other face }

/-- One face contributes its three directed edges:
`addEdge(a, b, f); addEdge(b, c, f); addEdge(c, a, f)`. -/
def addFaceEdges (s : AdjState) (f : ℕ) (t : ℕ × ℕ × ℕ) : AdjState :=
  addEdge (addEdge (addEdge s t.1 t.2.1 f) t.2.1 t.2.2 f) t.2.2 t.1 f

/-- The main loop of `buildFaceAdjacency`: faces are processed in order with a
running face counter `f`. -/
def buildAdjAux : AdjState → ℕ → List (ℕ × ℕ × ℕ) → AdjState
  | s, _, [] => s
  | s, f, t :: ts => buildAdjAux (addFaceEdges s f t) (f + 1) ts

/-- Group a flat vertex-id list into consecutive triangles
(`Math.floor(count / 3)` faces; a trailing partial triple is dropped). -/
def triples : List ℕ → List (ℕ × ℕ × ℕ)
  | a :: b :: c :: rest => (a, b, c) :: triples rest
  | _ => []

/-- Quantisation key for the non-indexed fallback of `buildFaceAdjacency`:
`Math.round(x / eps)` per coordinate with `eps = 1e-5` (modelled as the exact
rational `1/100000`; Lean's `round` on `ℚ` is `⌊x + 1/2⌋`, the same rounding
convention as JS `Math.round`). -/
def canonKey (p : ℚ × ℚ × ℚ) : ℤ × ℤ × ℤ :=
  (round (p.1 / (1 / 100000)), round (p.2.1 / (1 / 100000)), round (p.2.2 / (1 / 100000)))

/-- Canonical vertex ids for the non-indexed fallback: each vertex gets the id
of the first earlier vertex with the same quantised position, fresh ids
counting up from 0 (the `canonical` / `map` / `next` loop). -/
def canonAux : List (ℚ × ℚ × ℚ) → List ((ℤ × ℤ × ℤ) × ℕ) → ℕ → List ℕ
  | [], _, _ => []
  | p :: ps, m, next =>
    match m.lookup (canonKey p) with
    | some existing => existing :: canonAux ps m next
    | none => next :: canonAux ps ((canonKey p, next) :: m) (next + 1)

/-- The triangle list over which `buildFaceAdjacency` iterates: the index
buffer grouped in threes, or the canonicalised vertex ids grouped in threes. -/
def faceTriples (g : Geometry) : List (ℕ × ℕ × ℕ) :=
  match g.index with
  | some idx => triples idx
  | none => triples (canonAux g.positions [] 0)

/-- `buildFaceAdjacency` (InteractiveModel.tsx): face count and per-face
neighbour lists.  No `position` attribute yields `faceCount = 0` and an empty
adjacency. -/
def buildFaceAdjacency (g : Geometry) : ℕ × (ℕ → List ℕ) :=
  if g.positions = [] then (0, fun _ => [])
  else
    let fc :=
      match g.index with
      | some idx => idx.length / 3
      | none => g.positions.length / 3
    (fc, (buildAdjAux { edgeToFace := [], adjacency := fun _ => [] } 0 (faceTriples g)).adjacency)

/-- Neighbour expansion step of the click BFS: each unvisited neighbour is
marked with depth `d + 1` and appended to the queue
(`if (shatter.visited[n] !== -1) continue; visited[n] = d + 1; queue[qt++] = n`).
The `-1` sentinel of the `Int16Array` is modelled as `none`. -/
def bfsExpand (d : ℕ) : List ℕ → (ℕ → Option ℕ) → List ℕ → ((ℕ → Option ℕ) × List ℕ)
  | [], visited, acc => (visited, acc)
  | n :: ns, visited, acc =>
    match visited n with
    | some _ => bfsExpand d ns visited acc
    | none => bfsExpand d ns (Function.update visited n (some (d + 1))) (acc ++ [n])

/-- The `while (qh < qt)` loop of the click BFS in `onModelPointerDown`,
idealised: the queue is modelled as an unbounded list of face ids.  The
source stores queue entries in an `Int16Array`, which truncates ids at or
above 32768 (and the handler then throws on the wrapped id) — `bfsLoop16`
below models that width exactly; this wrap-free variant agrees with it only
when every enqueued id fits in 16 bits.  A dequeued face at depth `≥ K` is
not expanded.  The loop is fuelled; in the code the loop performs at most
`faceCount` dequeues because every enqueue marks a previously unvisited face,
so fuel `faceCount` reproduces the loop. -/
def bfsLoop (adj : ℕ → List ℕ) (K : ℕ) : ℕ → List ℕ → (ℕ → Option ℕ) → (ℕ → Option ℕ)
  | 0, _, visited => visited
  | _ + 1, [], visited => visited
  | fuel + 1, f :: rest, visited =>
    match visited f with
    | none => bfsLoop adj K fuel rest visited
    | some d =>
      if K ≤ d then bfsLoop adj K fuel rest visited
      else
        let ex := bfsExpand d (adj f) visited []
        bfsLoop adj K fuel (rest ++ ex.2) ex.1

/-- The bounded BFS of `onModelPointerDown`, idealised (wrap-free queue, see
`bfsLoop`): start face is marked with depth 0 and enqueued, then the queue is
drained.  `runBfs16` below is the width-faithful variant; the two coincide
only when every enqueued face id is below 32768. -/
def runBfs (adj : ℕ → List ℕ) (K faceCount start : ℕ) : ℕ → Option ℕ :=
  bfsLoop adj K faceCount [start] (Function.update (fun _ => none) start (some 0))

/-- `Math.pow(1 - d / (K + 1), 1.35)` with `K = 4`, the wave weight written for
a face at BFS depth `d` (real power, since the exponent is not an integer). -/
noncomputable def waveWeight (d : ℕ) : ℝ :=
  (1 - (d : ℝ) / (4 + 1)) ^ (1.35 : ℝ)

/-- `d * STEP_S` with `STEP_S = 0.06`, the wave delay written for a face at BFS
depth `d`. -/
noncomputable def waveDelay (d : ℕ) : ℝ :=
  (d : ℝ) * 0.06

/-- The per-vertex `aDelay` / `aBurstW` buffers (indexed by vertex id; vertex
`3f + j`, `j < 3`, belongs to face `f`). -/
structure WaveBuffers where
  delays : ℕ → ℝ
  bursts : ℕ → ℝ

/-- Write one value into the three vertex slots of face `f`
(`delays[base] = …; delays[base + 1] = …; delays[base + 2] = …`). -/
def upd3 (g : ℕ → ℝ) (f : ℕ) (v : ℝ) : ℕ → ℝ :=
  Function.update (Function.update (Function.update g (3 * f) v) (3 * f + 1) v) (3 * f + 2) v

/-- The per-face body of the wave write pass for a visited face at depth `d`. -/
noncomputable def writeFace (b : WaveBuffers) (f d : ℕ) : WaveBuffers :=
  { delays := upd3 b.delays f (waveDelay d),
    bursts := upd3 b.bursts f (waveWeight d) }

/-- The wave write pass (`for (let f = 0; f < shatter.faceCount; f += 1)`):
unvisited faces (`d === -1`) are skipped, visited faces get their three vertex
slots written. -/
noncomputable def wavePass (visited : ℕ → Option ℕ) : List ℕ → WaveBuffers → WaveBuffers
  | [], b => b
  | f :: rest, b =>
    match visited f with
    | none => wavePass visited rest b
    | some d => wavePass visited rest (writeFace b f d)

/-- Buffers right after `delays.fill(1e9); bursts.fill(0)` — also the initial
buffer contents produced by `buildShatterWireGeometry`
(`aDelay.fill(1e9); aBurstW.fill(0)`). -/
noncomputable def filledBuffers : WaveBuffers :=
  { delays := fun _ => 1e9, bursts := fun _ => 0 }

/-- The wave-relevant state of the shatter overlay: face count and adjacency
from `buildFaceAdjacency`, the dynamic `aDelay` / `aBurstW` attribute arrays,
and the `uClickTime` / `uTime` uniforms. -/
structure ShatterState where
  faceCount : ℕ
  adjacency : ℕ → List ℕ
  delays : ℕ → ℝ
  bursts : ℕ → ℝ
  clickTime : ℝ
  uTime : ℝ

/-- The shatter state produced by `buildShatterWireGeometry` for a geometry
(buffers filled with the sentinel values; `t0` is the current `uTime` and
`c0` the current `uClickTime` uniform value). -/
noncomputable def buildShatterWire (g : Geometry) (t0 c0 : ℝ) : ShatterState :=
  { faceCount := (buildFaceAdjacency g).1,
    adjacency := (buildFaceAdjacency g).2,
    delays := fun _ => 1e9,
    bursts := fun _ => 0,
    clickTime := c0,
    uTime := t0 }

/-- The wave-triggering core of `onModelPointerDown`: a missing face index or
one outside `[0, faceCount)` returns before touching any state; otherwise the
buffers are refilled with the sentinels, the bounded BFS (`K = 4`,
`STEP_S = 0.06`) is run from the clicked face, the write pass stores
`(delay, weight)` per visited face, and `uClickTime` is set to `uTime`.
This transition uses the idealised wrap-free BFS; `onModelPointerDown16`
below is the width-faithful transition, which additionally models the
`TypeError` thrown when the `Int16Array` queue wraps a face id. -/
noncomputable def onModelPointerDown (s : ShatterState) (faceIndex : Option ℤ) : ShatterState :=
  match faceIndex with
  | none => s
  | some i =>
    if i < 0 ∨ (s.faceCount : ℤ) ≤ i then s
    else
      let visited := runBfs s.adjacency 4 s.faceCount i.toNat
      let bufs := wavePass visited (List.range s.faceCount) filledBuffers
      { s with delays := bufs.delays, bursts := bufs.bursts, clickTime := s.uTime }

/-- The signed 16-bit value actually stored by `shatter.queue[qt++] = n`: the
queue is `new Int16Array(faceCount)`, so a face id at or above 32768 wraps to
a negative (or aliased) value on enqueue. -/
def toInt16 (n : ℕ) : ℤ :=
  ((n : ℤ) + 32768) % 65536 - 32768

/-- Neighbour expansion with the `Int16Array` semantics: `visited` holds raw
signed values (`-1` = unvisited), each unvisited neighbour is marked `d + 1`
and its truncated id is enqueued
(`if (visited[n] !== -1) continue; visited[n] = d + 1; queue[qt++] = n`). -/
def bfsExpand16 (d : ℤ) : List ℕ → (ℕ → ℤ) → List ℤ → ((ℕ → ℤ) × List ℤ)
  | [], visited, acc => (visited, acc)
  | n :: ns, visited, acc =>
    if visited n ≠ -1 then bfsExpand16 d ns visited acc
    else bfsExpand16 d ns (Function.update visited n (d + 1)) (acc ++ [toInt16 n])

/-- The `while (qh < qt)` loop with the `Int16Array` queue modelled exactly.
A dequeued value that is negative (a wrapped id) or at or beyond `faceCount`
indexes outside `visited` and `adjacency`: `visited[f]` is `undefined`,
`undefined >= K` is false, and `adjacency[f].length` throws a `TypeError` —
modelled as `none`.  A valid dequeued index proceeds with its raw signed
depth (which can be `-1` when an aliased id dequeues an unvisited face). -/
def bfsLoop16 (adj : ℕ → List ℕ) (faceCount : ℕ) (K : ℤ) :
    ℕ → List ℤ → (ℕ → ℤ) → Option (ℕ → ℤ)
  | 0, _, visited => some visited
  | _ + 1, [], visited => some visited
  | fuel + 1, f :: rest, visited =>
    if 0 ≤ f ∧ f < (faceCount : ℤ) then
      let d := visited f.toNat
      if K ≤ d then bfsLoop16 adj faceCount K fuel rest visited
      else
        let ex := bfsExpand16 d (adj f.toNat) visited []
        bfsLoop16 adj faceCount K fuel (rest ++ ex.2) ex.1
    else none

/-- The bounded click BFS with the 16-bit queue: the start face is marked with
depth 0 and its (possibly wrapped) id enqueued, then the queue is drained;
`none` models the `TypeError` thrown when a wrapped id is dequeued.  Fuel
`faceCount` covers the at most `faceCount` dequeues of the source loop. -/
def runBfs16 (adj : ℕ → List ℕ) (K : ℤ) (faceCount start : ℕ) : Option (ℕ → ℤ) :=
  bfsLoop16 adj faceCount K faceCount [toInt16 start] (Function.update (fun _ => -1) start 0)

/-- `d * STEP_S` for a raw signed recorded depth. -/
noncomputable def waveDelayZ (d : ℤ) : ℝ :=
  (d : ℝ) * 0.06

/-- `Math.pow(1 - d / (K + 1), 1.35)` for a raw signed recorded depth. -/
noncomputable def waveWeightZ (d : ℤ) : ℝ :=
  (1 - (d : ℝ) / (4 + 1)) ^ (1.35 : ℝ)

/-- The per-face body of the wave write pass for a recorded raw depth `d`. -/
noncomputable def writeFace16 (b : WaveBuffers) (f : ℕ) (d : ℤ) : WaveBuffers :=
  { delays := upd3 b.delays f (waveDelayZ d),
    bursts := upd3 b.bursts f (waveWeightZ d) }

/-- The wave write pass over the raw signed `visited` values: `-1` skipped,
anything else written into the three vertex slots of the face. -/
noncomputable def wavePass16 (visited : ℕ → ℤ) : List ℕ → WaveBuffers → WaveBuffers
  | [], b => b
  | f :: rest, b =>
    if visited f = -1 then wavePass16 visited rest b
    else wavePass16 visited rest (writeFace16 b f (visited f))

/-- The wave-triggering core with the `Int16Array` queue modelled exactly.
The guards run first; then the buffers are refilled with the sentinels, then
the BFS runs.  When the BFS throws, the write pass and the `uClickTime`
update never execute, so the component is left with all-sentinel buffers and
the exception escapes the handler (recorded in the boolean).  Otherwise the
write pass and the click-time stamp proceed as in the wrap-free variant. -/
noncomputable def onModelPointerDown16 (s : ShatterState) (faceIndex : Option ℤ) :
    ShatterState × Bool :=
  match faceIndex with
  | none => (s, false)
  | some i =>
    if i < 0 ∨ (s.faceCount : ℤ) ≤ i then (s, false)
    else
      match runBfs16 s.adjacency 4 s.faceCount i.toNat with
      | none => ({ s with delays := fun _ => 1e9, bursts := fun _ => 0 }, true)
      | some visited =>
        let bufs := wavePass16 visited (List.range s.faceCount) filledBuffers
        ({ s with delays := bufs.delays, bursts := bufs.bursts, clickTime := s.uTime }, false)

/-- A shatter state over a mesh of 32769 faces (face ids up to 32768, the
first id that wraps in a 16-bit queue), with empty neighbour lists and
distinctive buffer contents. -/
noncomputable def sBigMesh : ShatterState :=
  { faceCount := 32769, adjacency := fun _ => [],
    delays := fun _ => 5, bursts := fun _ => 7, clickTime := 11, uTime := 13 }

/-- `pulseEnvelope(p01)` (InteractiveModel.tsx): clamp to `[0,1]`, linear
attack over the first 18%, quadratic decay over the remaining 82%. -/
def pulseEnvelope (p01 : ℚ) : ℚ :=
  let t := min (max p01 0) 1
  let attack := min (t / (18 / 100)) 1
  let decayT := max ((t - 18 / 100) / (82 / 100)) 0
  let decay := 1 - decayT * decayT
  attack * decay

/-- The global-pulse computation of the `useFrame` body: `gPulse` stays `0`
unless `0 ≤ elapsed ≤ durationMs`, in which case it is
`pulseEnvelope(elapsed / durationMs) * intensity`. -/
def gPulse (startTime durationMs intensity now : ℚ) : ℚ :=
  let elapsed := now - startTime
  if 0 ≤ elapsed ∧ elapsed ≤ durationMs then
    pulseEnvelope (elapsed / durationMs) * intensity
  else 0

/-- `InferencePulseMode` -/
inductive PulseMode
  | ai
  | neutral
  | system
deriving DecidableEq, Repr

/-- `InferencePulseOptions` — every field optional. -/
structure InferencePulseOptions where
  intensity : Option ℚ
  durationMs : Option ℚ
  mode : Option PulseMode

/-- `InferencePulseState` -/
structure InferencePulseState where
  startTime : ℚ
  durationMs : ℚ
  intensity : ℚ
  mode : PulseMode
deriving DecidableEq, Repr

/-- `DEFAULT_PULSE` of BackgroundEffectsProvider: intensity 0.75, duration
850 ms, mode "ai". -/
def DEFAULT_PULSE : InferencePulseState :=
  { startTime := 0, durationMs := 850, intensity := 75 / 100, mode := .ai }

/-- State owned by `BackgroundEffectsProvider`: the single `pulse` cell, the
pending `clearTimerRef` timeout (id and scheduled fire time) and a counter
supplying fresh timeout ids (modelling `window.setTimeout` handles; every
handle ever issued is below `nextId`). -/
structure ProviderState where
  pulse : Option InferencePulseState
  timer : Option (ℕ × ℚ)
  nextId : ℕ

/-- Provider state before any trigger: no pulse, no pending timeout. -/
def initialProvider : ProviderState :=
  { pulse := none, timer := none, nextId := 0 }

/-- `triggerInferencePulse(options)` at wall-clock time `now`: merge defaults,
clear any scheduled reset (`window.clearTimeout`), install the fresh pulse
with `startTime = performance.now()`, and schedule the clearing timeout for
`durationMs + 34` ms later. -/
def triggerInferencePulse (now : ℚ) (opts : InferencePulseOptions) (s : ProviderState) :
    ProviderState :=
  let intensity := opts.intensity.getD DEFAULT_PULSE.intensity
  let durationMs := opts.durationMs.getD DEFAULT_PULSE.durationMs
  let mode := opts.mode.getD DEFAULT_PULSE.mode
  { pulse := some { startTime := now, durationMs := durationMs,
                    intensity := intensity, mode := mode },
    timer := some (s.nextId, now + durationMs + 34),
    nextId := s.nextId + 1 }

/-- Delivery of a timeout callback with handle `id`: a cleared (cancelled)
timeout never runs, so the callback only takes effect when `id` is the
currently pending handle; then it clears the pulse and the handle
(`setPulse(null); clearTimerRef.current = null`). -/
def fireTimer (id : ℕ) (s : ProviderState) : ProviderState :=
  match s.timer with
  | none => s
  | some t => if t.1 = id then { s with pulse := none, timer := none } else s

/-- Well-formedness of a provider state: any pending timeout handle was issued
earlier than the next fresh handle.  Holds for `initialProvider` and is
preserved by `triggerInferencePulse` and `fireTimer`. -/
def ProviderWF (s : ProviderState) : Prop :=
  ∀ t ∈ s.timer, t.1 < s.nextId

/-- The `fit` option of `useFitToViewport`. -/
inductive FitMode
  | both
  | vertical
  | horizontal
deriving DecidableEq, Repr

/-- An axis-aligned bounding box (three.js `Box3`), coordinates as exact
rationals. -/
structure Box3Q where
  minX : ℚ
  minY : ℚ
  minZ : ℚ
  maxX : ℚ
  maxY : ℚ
  maxZ : ℚ
deriving DecidableEq, Repr

/-- World-space box of the content measured by `Box3().setFromObject(content)`
when the root group carries uniform nonnegative scale `rootScale` and the
content group carries offset `offset`: every corner is translated by the
offset and scaled. -/
def measuredBox (rootScale : ℚ) (offset : ℚ × ℚ × ℚ) (b : Box3Q) : Box3Q :=
  { minX := rootScale * (b.minX + offset.1),
    minY := rootScale * (b.minY + offset.2.1),
    minZ := rootScale * (b.minZ + offset.2.2),
    maxX := rootScale * (b.maxX + offset.1),
    maxY := rootScale * (b.maxY + offset.2.1),
    maxZ := rootScale * (b.maxZ + offset.2.2) }

/-- The transform state `refit` reads and writes: the root group's uniform
scale, the content group's position, and the published `fitScale`. -/
structure FitState where
  rootScale : ℚ
  contentPos : ℚ × ℚ × ℚ
  fitScale : ℚ
deriving DecidableEq, Repr

/-- The inputs `refit` measures against: the content's intrinsic (unscaled,
uncentered) bounding box; a flag modelling `isFinite` of the measured extents
(exact rationals have no non-finite values, so float non-finiteness is carried
as a marker); the camera distance to the root's world position; `tan(vFov/2)`
of the camera (taken as an input because the tangent of the external camera's
field of view is a camera parameter, not computed by this core); the camera
aspect (`0` models a falsy `cam.aspect`); the canvas size fallback; the
margins; and the fit mode. -/
structure RefitInput where
  contentBox : Box3Q
  boxFinite : Bool
  dist : ℚ
  tanHalfVFov : ℚ
  aspect : ℚ
  width : ℚ
  height : ℚ
  marginX : ℚ
  marginY : ℚ
  fitMode : FitMode

/-- Extent in x of the box measured after the resets
(`root.scale.set(1,1,1); content.position.set(0,0,0)`). -/
def refitSizeX (inp : RefitInput) : ℚ :=
  (measuredBox 1 (0, 0, 0) inp.contentBox).maxX - (measuredBox 1 (0, 0, 0) inp.contentBox).minX

/-- Extent in y of the box measured after the resets. -/
def refitSizeY (inp : RefitInput) : ℚ :=
  (measuredBox 1 (0, 0, 0) inp.contentBox).maxY - (measuredBox 1 (0, 0, 0) inp.contentBox).minY

/-- The degeneracy guard of `refit`:
`!isFinite(boxSize.x) || !isFinite(boxSize.y) || boxSize.x <= 0 || boxSize.y <= 0`. -/
def refitDegenerate (inp : RefitInput) : Bool :=
  !inp.boxFinite || decide (refitSizeX inp ≤ 0) || decide (refitSizeY inp ≤ 0)

/-- The candidate scale computed by `refit` from the measured box and the
camera frustum:
`viewHeight = 2 * distance * tan(vFov / 2)`, `viewWidth = viewHeight * aspect`,
targets shrunk by the margins, `sH = targetH / boxSize.y`,
`sW = targetW / boxSize.x`, selected per fit mode. -/
def nextScaleOf (inp : RefitInput) : ℚ :=
  let viewHeight := 2 * inp.dist * inp.tanHalfVFov
  let aspect := if inp.aspect ≠ 0 then inp.aspect else inp.width / inp.height
  let viewWidth := viewHeight * aspect
  let targetH := viewHeight * (1 - 2 * inp.marginY)
  let targetW := viewWidth * (1 - 2 * inp.marginX)
  let sH := targetH / refitSizeY inp
  let sW := targetW / refitSizeX inp
  match inp.fitMode with
  | .vertical => sH
  | .horizontal => sW
  | .both => min sH sW

/-- The center of the measured box (`box.getCenter(center)`). -/
def refitCenter (inp : RefitInput) : ℚ × ℚ × ℚ :=
  let b := measuredBox 1 (0, 0, 0) inp.contentBox
  ((b.minX + b.maxX) / 2, (b.minY + b.maxY) / 2, (b.minZ + b.maxZ) / 2)

/-- `refit` of useFitToViewport.ts: reset the root scale to 1 and the content
position to the origin, measure, bail out (restoring the root scale and
keeping the previous `fitScale`) on a degenerate box, otherwise recenter the
content at the origin, compute the candidate scale, restore the root scale,
and publish the candidate only when it is finite and positive (finiteness is
automatic over exact rationals). -/
def refit (inp : RefitInput) (s : FitState) : FitState :=
  let prevRootScale := s.rootScale
  if refitDegenerate inp then
    { rootScale := prevRootScale, contentPos := (0, 0, 0), fitScale := s.fitScale }
  else
    let c := refitCenter inp
    let nextScale := nextScaleOf inp
    { rootScale := prevRootScale,
      contentPos := (0 - c.1, 0 - c.2.1, 0 - c.2.2),
      fitScale := if 0 < nextScale then nextScale else s.fitScale }

/-- Two to the thirty-second power, the modulus of all JS 32-bit bit-pattern
arithmetic below. -/
def UINT32 : ℕ := 4294967296

/-- `Math.imul` on 32-bit bit patterns. -/
def imul32 (a b : ℕ) : ℕ :=
  (a * b) % UINT32

/-- `hashStringToUint` (InferenceOverlay.tsx): FNV-1a over the UTF-16 code
units of the string (the uuids hashed are ASCII, where Lean's `Char.toNat`
agrees with `charCodeAt`). -/
def hashStringToUint (input : String) : ℕ :=
  input.toList.foldl (fun h c => imul32 (h ^^^ Char.toNat c) 16777619) 2166136261

/-- One step of `mulberry32`: returns the updated internal state `t` and the
32-bit output pattern.  JS signed/unsigned views share bit patterns, so all
operations are exact on patterns modulo `2^32`. -/
def mulberry32Step (state : ℕ) : ℕ × ℕ :=
  let t := (state + 0x6d2b79f5) % UINT32
  let x1 := imul32 (t ^^^ (t >>> 15)) (1 ||| t)
  let x2 := x1 ^^^ ((x1 + imul32 (x1 ^^^ (x1 >>> 7)) (61 ||| x1)) % UINT32)
  (t, x2 ^^^ (x2 >>> 14))

/-- `rng()` as a rational in `[0, 1)`: the 32-bit output divided by `2^32`
(exact in a double). -/
def nextFloat (state : ℕ) : ℕ × ℚ :=
  let r := mulberry32Step state
  (r.1, (r.2 : ℚ) / 4294967296)

/-- `Math.floor(rng() * n)` -/
def nextBounded (state n : ℕ) : ℕ × ℕ :=
  let r := nextFloat state
  (r.1, (Int.floor (r.2 * (n : ℚ))).toNat)

/-- `addEdge` of `dedupeEdges` (InferenceOverlay.tsx): record each unordered
vertex-index pair once, in first-seen order (the JS `Set` and `result` array
always hold the same keys, so the result list doubles as the seen-set). -/
def addDedupEdge (acc : List (ℕ × ℕ)) (a b : ℕ) : List (ℕ × ℕ) :=
  let k := (min a b, max a b)
  if k ∈ acc then acc else acc ++ [k]

/-- `dedupeEdges`: one pass over the triangles (index buffer grouped in threes,
or consecutive vertex triples for non-indexed geometry; the non-indexed loop
visits `⌈count / 3⌉` triples because its guard is `i < position.count`). -/
def dedupeEdges (g : Geometry) : List (ℕ × ℕ) :=
  if g.positions = [] then []
  else
    let ts :=
      match g.index with
      | some idx => triples idx
      | none => (List.range ((g.positions.length + 2) / 3)).map fun f => (3 * f, 3 * f + 1, 3 * f + 2)
    ts.foldl
      (fun acc t => addDedupEdge (addDedupEdge (addDedupEdge acc t.1 t.2.1) t.2.1 t.2.2) t.2.2 t.1)
      []

/-- Vertex position lookup `position.getX/getY/getZ(i)` (out-of-range reads do
not occur for well-formed geometry; the default is irrelevant padding). -/
def posAt (g : Geometry) (i : ℕ) : ℚ × ℚ × ℚ :=
  g.positions.getD i (0, 0, 0)

/-- Squared distance between two vertices.  The code compares the euclidean
distance `d` against the band `[minChord, maxChord]`; both sides are
nonnegative, so the comparison is carried out on squares to stay in `ℚ`. -/
def distSq (p q : ℚ × ℚ × ℚ) : ℚ :=
  (p.1 - q.1) * (p.1 - q.1) + (p.2.1 - q.2.1) * (p.2.1 - q.2.1) +
    (p.2.2 - q.2.2) * (p.2.2 - q.2.2)

/-- Squared diagonal of the geometry's bounding box
(`bbox.getSize(new Vector3()).length()`, squared; an empty geometry measures
zero, and `dedupeEdges` is empty in that case so the value is never used). -/
def diagSq (g : Geometry) : ℚ :=
  match g.positions with
  | [] => 0
  | p :: ps =>
    let lo := ps.foldl (fun (l : ℚ × ℚ × ℚ) q => (min l.1 q.1, min l.2.1 q.2.1, min l.2.2 q.2.2)) p
    let hi := ps.foldl (fun (h : ℚ × ℚ × ℚ) q => (max h.1 q.1, max h.2.1 q.2.1, max h.2.2 q.2.2)) p
    (hi.1 - lo.1) * (hi.1 - lo.1) + (hi.2.1 - lo.2.1) * (hi.2.1 - lo.2.1) +
      (hi.2.2 - lo.2.2) * (hi.2.2 - lo.2.2)

/-- Swap two list entries (the body of the Fisher–Yates shuffle). -/
def listSwap (l : List ℕ) (i j : ℕ) : List ℕ :=
  let vi := l.getD i 0
  let vj := l.getD j 0
  (l.set i vj).set j vi

/-- The seeded Fisher–Yates loop
(`for (let i = len - 1; i > 0; i -= 1) { j = floor(rng() * (i + 1)); swap }`);
`shuffleAux st l i` still has to process positions `i, i - 1, …, 1`. -/
def shuffleAux : ℕ → List ℕ → ℕ → ℕ × List ℕ
  | st, l, 0 => (st, l)
  | st, l, i + 1 =>
    let r := nextBounded st (i + 2)
    shuffleAux r.1 (listSwap l (i + 1) r.2) i

/-- Deterministic shuffle of `edgeIndices = [0, …, n-1]`. -/
def shuffledEdgeIndices (st n : ℕ) : ℕ × List ℕ :=
  match n with
  | 0 => (st, [])
  | m + 1 => shuffleAux st (List.range (m + 1)) m

/-- Accumulator of `buildSegments`' selection phase: the `usedPairs` set and
the ordered `chosen` list of `[a, b, kind]` records. -/
structure ChooseState where
  used : List (ℕ × ℕ)
  chosen : List (ℕ × ℕ × ℕ)

/-- `takeEdge(a, b, kind)`: skip already-used unordered pairs, otherwise append
the record. -/
def takeEdge (cs : ChooseState) (a b kind : ℕ) : ChooseState :=
  let k := (min a b, max a b)
  if k ∈ cs.used then cs
  else { used := k :: cs.used, chosen := cs.chosen ++ [(a, b, kind)] }

/-- The chord-selection loop of `buildSegments`
(`while (chosen.length < edgeCount + chordCountTarget && attempts < maxAttempts)`):
draw two vertex indices, reject equal picks and pairs outside the distance
band, otherwise record the chord (kind 1).  Fuel is the remaining attempt
budget. -/
def chordLoop (g : Geometry) (posCount : ℕ) (minSq maxSq : ℚ) (targetLen : ℕ) :
    ℕ → ℕ → ChooseState → ℕ × ChooseState
  | 0, st, cs => (st, cs)
  | fuel + 1, st, cs =>
    if targetLen ≤ cs.chosen.length then (st, cs)
    else
      let ra := nextBounded st posCount
      let rb := nextBounded ra.1 posCount
      if ra.2 = rb.2 then chordLoop g posCount minSq maxSq targetLen fuel rb.1 cs
      else
        let dsq := distSq (posAt g ra.2) (posAt g rb.2)
        if dsq < minSq ∨ maxSq < dsq then chordLoop g posCount minSq maxSq targetLen fuel rb.1 cs
        else chordLoop g posCount minSq maxSq targetLen fuel rb.1 (takeEdge cs ra.2 rb.2 1)

/-- One line segment of the overlay: endpoint coordinates, the per-segment
animation seed, and the kind tag (0 = mesh edge, 1 = chord).  The constant
`aProgress` pair `(0, 1)` carries no per-segment information. -/
structure Segment where
  pa : ℚ × ℚ × ℚ
  pb : ℚ × ℚ × ℚ
  seed : ℚ
  kind : ℕ
deriving DecidableEq, Repr

/-- The attribute-filling loop of `buildSegments`: one `rng()` seed per chosen
record, endpoints looked up in the position buffer, in `chosen` order. -/
def emitSegments (g : Geometry) : List (ℕ × ℕ × ℕ) → ℕ → List Segment
  | [], _ => []
  | c :: rest, st =>
    let r := nextFloat st
    { pa := posAt g c.1, pb := posAt g c.2.1, seed := r.2, kind := c.2.2 } ::
      emitSegments g rest r.1

/-- `buildSegments(geometry, targetCount, rng)` (InferenceOverlay.tsx), with
the PRNG state threaded explicitly: split the target into ~72% true edges and
~28% chords, take a seeded-shuffle prefix of the deduplicated edges, sample
chords within the `[0.08, 0.55] × diagonal` band under a capped attempt
budget, then emit the ordered segment records. -/
def buildSegments (g : Geometry) (targetCount : ℕ) (rngState : ℕ) : List Segment :=
  if g.positions = [] then []
  else
    let edges := dedupeEdges g
    if edges = [] then []
    else
      let dsq := diagSq g
      let edgeCountTarget := (Int.floor ((targetCount : ℚ) * (1 - 28 / 100))).toNat
      let chordCountTarget := targetCount - edgeCountTarget
      let sh := shuffledEdgeIndices rngState edges.length
      let edgeCount := min edgeCountTarget edges.length
      let cs1 := (List.range edgeCount).foldl
        (fun cs i =>
          let e := edges.getD (sh.2.getD i 0) (0, 0)
          takeEdge cs e.1 e.2 0)
        { used := [], chosen := [] }
      let minSq := dsq * (8 / 100) * (8 / 100)
      let maxSq := dsq * (55 / 100) * (55 / 100)
      let maxAttempts := max 400 (chordCountTarget * 20)
      let cl := chordLoop g g.positions.length minSq maxSq (edgeCount + chordCountTarget)
        maxAttempts sh.1 cs1
      emitSegments g cl.2.chosen cl.1

/-- `getTargetSegments(width, height, dpr, debug)` -/
def getTargetSegments (width height dpr : ℚ) (debug : Bool) : ℕ :=
  if debug then 320
  else
    let density := min width height * dpr
    if density < 900 then 90
    else if density < 1300 then 150
    else if density < 1700 then 210
    else 260

/-- The `segmentData` memo of `InferenceOverlay`: target count from the
viewport density, PRNG seeded by the hash of the geometry's uuid (xored with a
constant in debug mode), then `buildSegments`. -/
def segmentData (g : Geometry) (width height dpr : ℚ) (debug : Bool) : List Segment :=
  let target := getTargetSegments width height dpr debug
  let seed := hashStringToUint g.uuid ^^^ (if debug then 0x9e3779b9 else 0)
  buildSegments g target seed

/-- Symmetry of a neighbour-list map: whenever `a` appears in `b`'s list, `b`
appears in `a`'s list. -/
def SymAdj (adj : ℕ → List ℕ) : Prop :=
  ∀ a b : ℕ, a ∈ adj b → b ∈ adj a

/-- Irreflexivity of a neighbour-list map: no face lists itself. -/
def IrreflAdj (adj : ℕ → List ℕ) : Prop :=
  ∀ a : ℕ, a ∉ adj a

/-- The per-face well-formedness of the vertex-attribute buffers: the three
vertices `3f`, `3f + 1`, `3f + 2` of face `f` carry identical `aDelay` values
and identical `aBurstW` values. -/
def FaceConstantBuffers (delays bursts : ℕ → ℝ) : Prop :=
  ∀ f : ℕ,
    delays (3 * f) = delays (3 * f + 1) ∧ delays (3 * f + 1) = delays (3 * f + 2) ∧
    bursts (3 * f) = bursts (3 * f + 1) ∧ bursts (3 * f + 1) = bursts (3 * f + 2)

/-- Demo geometry: two triangles sharing the edge `(0, 1)`. -/
def gTwoFaces : Geometry :=
  { positions := [(0, 0, 0), (1, 0, 0), (0, 1, 0), (1, 1, 0)],
    index := some [0, 1, 2, 0, 1, 3],
    uuid := "demo-two-faces" }

/-- Demo geometry: three triangles all sharing the edge `(0, 1)` (a fan whose
shared edge has three claimant faces). -/
def gSharedEdge3 : Geometry :=
  { positions := [(0, 0, 0), (1, 0, 0), (0, 1, 0), (0, 0, 1), (1, 1, 1)],
    index := some [0, 1, 2, 0, 1, 3, 0, 1, 4],
    uuid := "demo-shared-edge" }

/-- Demo geometry A for the overlay determinism witness. -/
def gOverlayA : Geometry :=
  { positions := [(0, 0, 0), (1, 0, 0), (0, 1, 0), (1, 1, 0)],
    index := some [0, 1, 2, 1, 3, 2],
    uuid := "demo-overlay" }

/-- Demo geometry B for the overlay determinism witness: an independently
constructed geometry with the same position data, index buffer and uuid. -/
def gOverlayB : Geometry :=
  { positions := [(0, 0, 0), (1, 0, 0), (0, 1, 0), (1, 1, 0)],
    index := some [0, 1, 2, 1, 3, 2],
    uuid := "demo-overlay" }

/- ------------------------------------------------------------------ -/
/- Theorems                                                            -/
/- ------------------------------------------------------------------ -/

theorem pulseEnvelope_at_zero : pulseEnvelope 0 = 0 := by
  norm_num [pulseEnvelope]

theorem pulseEnvelope_at_one : pulseEnvelope 1 = 0 := by
  norm_num [pulseEnvelope]

theorem pulseEnvelope_nonneg (p : ℚ) : 0 ≤ pulseEnvelope p := by
  unfold pulseEnvelope
  have ht0 : (0 : ℚ) ≤ min (max p 0) 1 := le_min (le_max_right p 0) (by norm_num)
  have ht1 : min (max p 0) 1 ≤ 1 := min_le_right _ 1
  have hattack : (0 : ℚ) ≤ min (min (max p 0) 1 / (18 / 100)) 1 :=
    le_min (by positivity) (by norm_num)
  have hdecayT : max ((min (max p 0) 1 - 18 / 100) / (82 / 100)) 0 ≤ 1 := by
    apply max_le _ (by norm_num)
    rw [div_le_one (by norm_num)]
    linarith
  have hdecayT0 : (0 : ℚ) ≤ max ((min (max p 0) 1 - 18 / 100) / (82 / 100)) 0 :=
    le_max_right _ 0
  have hdecay : 0 ≤ 1 - max ((min (max p 0) 1 - 18 / 100) / (82 / 100)) 0 *
      max ((min (max p 0) 1 - 18 / 100) / (82 / 100)) 0 := by nlinarith
  exact mul_nonneg hattack hdecay

theorem pulseEnvelope_le_one (p : ℚ) : pulseEnvelope p ≤ 1 := by
  unfold pulseEnvelope
  have hattack1 : min (min (max p 0) 1 / (18 / 100)) 1 ≤ 1 := min_le_right _ 1
  have hattack0 : (0 : ℚ) ≤ min (min (max p 0) 1 / (18 / 100)) 1 := by
    have ht0 : (0 : ℚ) ≤ min (max p 0) 1 := le_min (le_max_right p 0) (by norm_num)
    exact le_min (by positivity) (by norm_num)
  have hdecayT0 : (0 : ℚ) ≤ max ((min (max p 0) 1 - 18 / 100) / (82 / 100)) 0 :=
    le_max_right _ 0
  have hdecay1 : 1 - max ((min (max p 0) 1 - 18 / 100) / (82 / 100)) 0 *
      max ((min (max p 0) 1 - 18 / 100) / (82 / 100)) 0 ≤ 1 := by nlinarith
  have hdecay0 : 0 ≤ 1 - max ((min (max p 0) 1 - 18 / 100) / (82 / 100)) 0 *
      max ((min (max p 0) 1 - 18 / 100) / (82 / 100)) 0 := by
    have ht1 : min (max p 0) 1 ≤ 1 := min_le_right _ 1
    have hdT : max ((min (max p 0) 1 - 18 / 100) / (82 / 100)) 0 ≤ 1 := by
      apply max_le _ (by norm_num)
      rw [div_le_one (by norm_num)]
      linarith
    nlinarith
  nlinarith

/-- C7. For every pulse `(startTime, durationMs, intensity)` with
`durationMs > 0` and `intensity ∈ [0, 1]`, the per-frame global pulse value is
`0` whenever `elapsed ≤ 0` or `elapsed ≥ durationMs`, and always lies within
`[0, intensity]`. -/
theorem gPulse_envelope_bounds (startTime durationMs intensity now : ℚ)
    (hdur : 0 < durationMs) (hi0 : 0 ≤ intensity) (hi1 : intensity ≤ 1) :
    (now - startTime ≤ 0 → gPulse startTime durationMs intensity now = 0) ∧
    (durationMs ≤ now - startTime → gPulse startTime durationMs intensity now = 0) ∧
    0 ≤ gPulse startTime durationMs intensity now ∧
    gPulse startTime durationMs intensity now ≤ intensity := by
  unfold gPulse
  dsimp only
  refine ⟨?_, ?_, ?_, ?_⟩
  · intro hle
    split_ifs with h
    · have he : now - startTime = 0 := le_antisymm hle h.1
      rw [he]
      simp [pulseEnvelope_at_zero]
    · rfl
  · intro hge
    split_ifs with h
    · have he : now - startTime = durationMs := le_antisymm h.2 hge
      rw [he, div_self (ne_of_gt hdur)]
      simp [pulseEnvelope_at_one]
    · rfl
  · split_ifs with h
    · exact mul_nonneg (pulseEnvelope_nonneg _) hi0
    · exact le_refl 0
  · split_ifs with h
    · exact mul_le_of_le_one_left hi0 (pulseEnvelope_le_one _)
    · exact hi0

/-- Witness for C7 at a concrete mid-pulse sample. -/
theorem gPulse_envelope_bounds_witness :
    (0 : ℚ) < 950 ∧ (0 : ℚ) ≤ 85 / 100 ∧ (85 : ℚ) / 100 ≤ 1 ∧
    (0 ≤ gPulse 100 950 (85 / 100) 400 ∧ gPulse 100 950 (85 / 100) 400 ≤ 85 / 100) :=
  ⟨by norm_num, by norm_num, by norm_num,
    (gPulse_envelope_bounds 100 950 (85 / 100) 400 (by norm_num) (by norm_num)
      (by norm_num)).2.2⟩

/-- C8. Calling `refit` twice in a row with the same measured inputs publishes
the same fit scale both times: because the root scale and content position are
reset before measuring, the second call measures the same box and computes the
same candidate scale. -/
theorem refit_idempotent (inp : RefitInput) (s : FitState) :
    (refit inp (refit inp s)).fitScale = (refit inp s).fitScale := by
  unfold refit
  by_cases hd : refitDegenerate inp
  · simp [hd]
  · by_cases hs : 0 < nextScaleOf inp <;> simp [hd, hs]

/-- C9. A degenerate measured bounding box (non-finite marker, or a
non-positive x or y extent) leaves the previously published fit scale
unchanged; moreover the published scale is always either the previous one or a
strictly positive rational (never an invalid value). -/
theorem refit_degenerate_guard (inp : RefitInput) (s : FitState) :
    ((inp.boxFinite = false ∨ refitSizeX inp ≤ 0 ∨ refitSizeY inp ≤ 0) →
      (refit inp s).fitScale = s.fitScale) ∧
    ((refit inp s).fitScale = s.fitScale ∨ 0 < (refit inp s).fitScale) := by
  constructor
  · intro h
    have hd : refitDegenerate inp = true := by
      unfold refitDegenerate
      rcases h with h | h | h
      · simp [h]
      · simp [h]
      · simp [h]
    unfold refit
    simp [hd]
  · unfold refit
    by_cases hd : refitDegenerate inp
    · simp [hd]
    · by_cases hs : 0 < nextScaleOf inp <;> simp [hd, hs]

/-- Witness for C9: a box with zero y-extent keeps the previous scale. -/
theorem refit_degenerate_guard_witness :
    (refit
      { contentBox := { minX := 0, minY := 2, minZ := 0, maxX := 1, maxY := 2, maxZ := 0 },
        boxFinite := true, dist := 5, tanHalfVFov := 1 / 2, aspect := 16 / 9,
        width := 1600, height := 900, marginX := 1 / 10, marginY := 1 / 10,
        fitMode := FitMode.both }
      { rootScale := 3, contentPos := (1, 1, 1), fitScale := 7 }).fitScale = 7 :=
  (refit_degenerate_guard _ _).1 (Or.inr (Or.inr (by norm_num [refitSizeY, measuredBox])))

/-- C4. Triggering a wave with no face index, or with a face index outside
`[0, faceCount)`, is a no-op: the guard returns before any buffer or uniform
is touched, so the whole shatter state (delay/weight buffers, click time,
everything) is exactly unchanged, and the total function cannot throw. -/
theorem onModelPointerDown_out_of_range_noop (s : ShatterState) (fi : Option ℤ)
    (h : ∀ i : ℤ, fi = some i → i < 0 ∨ (s.faceCount : ℤ) ≤ i) :
    onModelPointerDown s fi = s := by
  cases fi with
  | none => rfl
  | some i =>
    have hi := h i rfl
    unfold onModelPointerDown
    simp [hi]

/-- Witness for C4: clicking face 99 of a two-face mesh changes nothing. -/
theorem onModelPointerDown_out_of_range_noop_witness :
    onModelPointerDown (buildShatterWire gTwoFaces 0 0) (some 99) =
      buildShatterWire gTwoFaces 0 0 :=
  onModelPointerDown_out_of_range_noop _ _ (by
    intro i hi
    cases hi
    right
    decide)

/-- Counterexample to C2 as stated: in the three-faces-share-an-edge geometry
`gSharedEdge3`, face 2 is the third claimant of the canonical edge `(0, 1)`,
yet it is not ignored — its claim adds the bidirectional adjacency entries
`2 ↔ 0` (had the third claimant been ignored, face 2's list would be `[]` and
face 0's list would be `[1]`). -/
theorem addEdge_third_claimant_counterexample :
    (buildFaceAdjacency gSharedEdge3).2 2 ≠ [] ∧
    (buildFaceAdjacency gSharedEdge3).2 2 = [0] ∧
    (buildFaceAdjacency gSharedEdge3).2 0 = [1, 2] := by
  refine ⟨?_, ?_, ?_⟩ <;> decide

/-- Helper: pointwise form of `pushAdj`. -/
theorem pushAdj_apply (adj : ℕ → List ℕ) (i x j : ℕ) :
    pushAdj adj i x j = if j = i then adj i ++ [x] else adj j :=
  Function.update_apply adj i (adj i ++ [x]) j

/-- C2 (amended). Once a canonical edge is claimed, its map entry permanently
records the first claimant and is never re-registered; every later claimant
with a different face id — the second, but equally any third or later face —
adds exactly one bidirectional adjacency pair between itself and the first
claimant (later claimants are not ignored), and no other neighbour list
changes. -/
theorem addEdge_later_claimant_links_first (s : AdjState) (a b f g : ℕ)
    (hmap : s.edgeToFace.lookup (edgeKey a b) = some g) (hg : g ≠ f) :
    (addEdge s a b f).edgeToFace = s.edgeToFace ∧
    (addEdge s a b f).adjacency f = s.adjacency f ++ [g] ∧
    (addEdge s a b f).adjacency g = s.adjacency g ++ [f] ∧
    ∀ x : ℕ, x ≠ f → x ≠ g → (addEdge s a b f).adjacency x = s.adjacency x := by
  have hfg : f ≠ g := hg.symm
  unfold addEdge
  dsimp only
  rw [hmap]
  simp only [hg, if_false]
  refine ⟨by trivial, ?_, ?_, ?_⟩
  · simp [pushAdj_apply, hfg]
  · simp [pushAdj_apply, hg]
  · intro x hxf hxg
    simp [pushAdj_apply, hxf, hxg]

/-- Witness for amended C2: a second claimant (face 5) of the already-claimed
edge `(0, 1)` is linked to the first claimant (face 0). -/
theorem addEdge_later_claimant_links_first_witness :
    (addEdge { edgeToFace := [((0, 1), 0)], adjacency := fun _ => [] } 1 0 5).adjacency 5 =
      [0] ∧
    (addEdge { edgeToFace := [((0, 1), 0)], adjacency := fun _ => [] } 1 0 5).adjacency 0 =
      [5] :=
  ⟨(addEdge_later_claimant_links_first _ 1 0 5 0 (by decide) (by decide)).2.1,
   (addEdge_later_claimant_links_first _ 1 0 5 0 (by decide) (by decide)).2.2.1⟩

/-- C5. The overlay segment sampler is deterministic: two runs over geometries
with the same position data, the same index buffer and the same uuid (hence
the same uuid-derived PRNG seed), with the same target segment count (same
viewport density inputs), produce identical segment lists — same endpoints,
same per-segment seeds, same edge/chord kind tags, in the same order.  All
randomness in the embedding flows from the seeded `mulberry32` state threaded
through `buildSegments`; no unseeded source appears. -/
theorem segmentData_deterministic (g1 g2 : Geometry) (w h dpr : ℚ) (debug : Bool)
    (hp : g1.positions = g2.positions) (hi : g1.index = g2.index)
    (hu : g1.uuid = g2.uuid) :
    (∀ target rngState, buildSegments g1 target rngState = buildSegments g2 target rngState) ∧
    segmentData g1 w h dpr debug = segmentData g2 w h dpr debug := by
  obtain ⟨p1, i1, u1⟩ := g1
  obtain ⟨p2, i2, u2⟩ := g2
  dsimp only at hp hi hu
  subst hp
  subst hi
  subst hu
  exact ⟨fun _ _ => rfl, rfl⟩

/-- Witness for C5: two independently constructed copies of the same geometry
sample the same segments. -/
theorem segmentData_deterministic_witness :
    segmentData gOverlayA 1200 800 2 false = segmentData gOverlayB 1200 800 2 false :=
  (segmentData_deterministic gOverlayA gOverlayB 1200 800 2 false rfl rfl rfl).2

/-- Helper: the initial provider state is well-formed. -/
theorem providerWF_initial : ProviderWF initialProvider := by
  intro t ht
  simp [initialProvider, Option.mem_def] at ht

/-- Helper: triggering preserves provider well-formedness (the fresh timeout
handle is below the bumped counter). -/
theorem providerWF_trigger (s : ProviderState) (now : ℚ) (opts : InferencePulseOptions) :
    ProviderWF (triggerInferencePulse now opts s) := by
  intro t ht
  have h2 : (s.nextId, now + opts.durationMs.getD DEFAULT_PULSE.durationMs + 34) = t := by
    simpa [triggerInferencePulse, Option.mem_def] using ht
  rw [← h2]
  exact Nat.lt_succ_self s.nextId

/-- C6. A trigger call supersedes any previous pulse: it installs a fresh
pulse with `startTime = now` (at most one pulse exists process-wide since the
provider owns a single optional cell), the previous pulse's pending expiry
timeout becomes a cancelled handle whose delivery is a no-op (it never
clears anything), and the freshly scheduled expiry — pending
`durationMs + 34` ms after `now` — clears the pulse back to the idle state
when it is not superseded first. -/
theorem triggerInferencePulse_supersedes (s : ProviderState) (now : ℚ)
    (opts : InferencePulseOptions) (hwf : ProviderWF s) :
    (triggerInferencePulse now opts s).pulse =
      some { startTime := now,
             durationMs := opts.durationMs.getD DEFAULT_PULSE.durationMs,
             intensity := opts.intensity.getD DEFAULT_PULSE.intensity,
             mode := opts.mode.getD DEFAULT_PULSE.mode } ∧
    (∀ tid t0, s.timer = some (tid, t0) →
      fireTimer tid (triggerInferencePulse now opts s) = triggerInferencePulse now opts s) ∧
    (triggerInferencePulse now opts s).timer =
      some (s.nextId, now + opts.durationMs.getD DEFAULT_PULSE.durationMs + 34) ∧
    fireTimer s.nextId (triggerInferencePulse now opts s) =
      { pulse := none, timer := none, nextId := s.nextId + 1 } ∧
    ProviderWF (triggerInferencePulse now opts s) := by
  refine ⟨rfl, ?_, rfl, ?_, providerWF_trigger s now opts⟩
  · intro tid t0 ht
    have hlt : tid < s.nextId := hwf (tid, t0) ht
    have hne : s.nextId ≠ tid := by omega
    simp [fireTimer, triggerInferencePulse, hne]
  · simp [fireTimer, triggerInferencePulse]

/-- Witness for C6, the spec's two-triggers scenario: first trigger at t = 0
(default duration, expiry handle 0 scheduled for t = 884), second trigger at
t = 50 with a shorter 400 ms duration; delivering the first pulse's cancelled
expiry is a no-op on the superseding state. -/
theorem triggerInferencePulse_supersedes_witness :
    fireTimer 0
        (triggerInferencePulse 50 { intensity := none, durationMs := some 400, mode := none }
          (triggerInferencePulse 0 { intensity := none, durationMs := none, mode := none }
            initialProvider)) =
      triggerInferencePulse 50 { intensity := none, durationMs := some 400, mode := none }
        (triggerInferencePulse 0 { intensity := none, durationMs := none, mode := none }
          initialProvider) :=
  (triggerInferencePulse_supersedes _ 50 _
      (providerWF_trigger initialProvider 0 _)).2.1 0 (0 + 850 + 34) rfl

/-- Helper: `push` only ever grows a neighbour list. -/
theorem mem_pushAdj_of_mem (adj : ℕ → List ℕ) (i v x y : ℕ) (h : x ∈ adj y) :
    x ∈ pushAdj adj i v y := by
  rw [pushAdj_apply]
  split_ifs with hy
  · subst hy
    exact List.mem_append_left _ h
  · exact h

/-- Helper: the paired pushes `adjacency[f].push(other); adjacency[other].push(f)`
preserve symmetry when `other ≠ f`. -/
theorem symAdj_pushPair (adj : ℕ → List ℕ) (f other : ℕ) (hne : other ≠ f)
    (hs : SymAdj adj) : SymAdj (pushAdj (pushAdj adj f other) other f) := by
  intro x y hxy
  have lift : ∀ u w : ℕ, u ∈ adj w → u ∈ pushAdj (pushAdj adj f other) other f w :=
    fun u w hu => mem_pushAdj_of_mem _ _ _ _ _ (mem_pushAdj_of_mem _ _ _ _ _ hu)
  rw [pushAdj_apply] at hxy
  by_cases hyo : y = other
  · rw [if_pos hyo, pushAdj_apply, if_neg hne] at hxy
    subst hyo
    rcases List.mem_append.mp hxy with hx | hx
    · exact lift _ _ (hs x y hx)
    · have hxf : x = f := List.mem_singleton.mp hx
      subst hxf
      rw [pushAdj_apply, if_neg (Ne.symm hne), pushAdj_apply, if_pos rfl]
      exact List.mem_append_right _ (List.mem_singleton.mpr rfl)
  · rw [if_neg hyo, pushAdj_apply] at hxy
    by_cases hyf : y = f
    · rw [if_pos hyf] at hxy
      subst hyf
      rcases List.mem_append.mp hxy with hx | hx
      · exact lift _ _ (hs x y hx)
      · have hxo : x = other := List.mem_singleton.mp hx
        subst hxo
        rw [pushAdj_apply, if_pos rfl, pushAdj_apply, if_neg hne]
        exact List.mem_append_right _ (List.mem_singleton.mpr rfl)
    · rw [if_neg hyf] at hxy
      exact lift _ _ (hs x y hxy)

/-- Helper: the paired pushes preserve irreflexivity when `other ≠ f`. -/
theorem irreflAdj_pushPair (adj : ℕ → List ℕ) (f other : ℕ) (hne : other ≠ f)
    (hi : IrreflAdj adj) : IrreflAdj (pushAdj (pushAdj adj f other) other f) := by
  intro a ha
  rw [pushAdj_apply] at ha
  by_cases hao : a = other
  · rw [if_pos hao, pushAdj_apply, if_neg hne] at ha
    subst hao
    rcases List.mem_append.mp ha with h | h
    · exact hi a h
    · exact hne (List.mem_singleton.mp h)
  · rw [if_neg hao, pushAdj_apply] at ha
    by_cases haf : a = f
    · rw [if_pos haf] at ha
      subst haf
      rcases List.mem_append.mp ha with h | h
      · exact hi a h
      · exact hne (List.mem_singleton.mp h).symm
    · rw [if_neg haf] at ha
      exact hi a ha

/-- Helper: the possible shapes of the adjacency map after one `addEdge`. -/
theorem addEdge_adjacency_cases (s : AdjState) (a b f : ℕ) :
    (addEdge s a b f).adjacency = s.adjacency ∨
    ∃ other, other ≠ f ∧
      (addEdge s a b f).adjacency = pushAdj (pushAdj s.adjacency f other) other f := by
  unfold addEdge
  dsimp only
  cases hl : s.edgeToFace.lookup (edgeKey a b) with
  | none => exact Or.inl rfl
  | some other =>
    dsimp only
    by_cases ho : other = f
    · rw [if_pos ho]
      exact Or.inl rfl
    · rw [if_neg ho]
      exact Or.inr ⟨other, ho, rfl⟩

/-- Helper: one `addEdge` preserves symmetry and irreflexivity. -/
theorem addEdge_sym_irrefl (s : AdjState) (a b f : ℕ)
    (hs : SymAdj s.adjacency) (hi : IrreflAdj s.adjacency) :
    SymAdj (addEdge s a b f).adjacency ∧ IrreflAdj (addEdge s a b f).adjacency := by
  rcases addEdge_adjacency_cases s a b f with h | ⟨other, hne, h⟩
  · rw [h]
    exact ⟨hs, hi⟩
  · rw [h]
    exact ⟨symAdj_pushPair _ _ _ hne hs, irreflAdj_pushPair _ _ _ hne hi⟩

/-- Helper: the whole face loop preserves symmetry and irreflexivity. -/
theorem buildAdjAux_sym_irrefl (ts : List (ℕ × ℕ × ℕ)) :
    ∀ (s : AdjState) (f : ℕ), SymAdj s.adjacency → IrreflAdj s.adjacency →
      SymAdj (buildAdjAux s f ts).adjacency ∧ IrreflAdj (buildAdjAux s f ts).adjacency := by
  induction ts with
  | nil => intro s f hs hi; exact ⟨hs, hi⟩
  | cons t ts ih =>
    intro s f hs hi
    simp only [buildAdjAux, addFaceEdges]
    have h1 := addEdge_sym_irrefl s t.1 t.2.1 f hs hi
    have h2 := addEdge_sym_irrefl _ t.2.1 t.2.2 f h1.1 h1.2
    have h3 := addEdge_sym_irrefl _ t.2.2 t.1 f h2.1 h2.2
    exact ih _ (f + 1) h3.1 h3.2

/-- C3. For every mesh geometry, the face-adjacency graph built by
`buildFaceAdjacency` is symmetric (whenever face `A` appears in face `B`'s
neighbour list, `B` appears in `A`'s) and irreflexive (no face is adjacent to
itself). -/
theorem buildFaceAdjacency_symm_irrefl (g : Geometry) :
    (∀ A B : ℕ, A ∈ (buildFaceAdjacency g).2 B → B ∈ (buildFaceAdjacency g).2 A) ∧
    (∀ A : ℕ, A ∉ (buildFaceAdjacency g).2 A) := by
  unfold buildFaceAdjacency
  by_cases hp : g.positions = []
  · simp [hp]
  · simp only [hp, if_false]
    have h := buildAdjAux_sym_irrefl (faceTriples g)
      { edgeToFace := [], adjacency := fun _ => [] } 0
      (fun a b hab => absurd hab (List.not_mem_nil a))
      (fun a hab => absurd hab (List.not_mem_nil a))
    exact ⟨h.1, h.2⟩

/-- Witness for C3 on the two-face mesh: face 1 is listed by face 0, and
symmetry yields the converse membership. -/
theorem buildFaceAdjacency_symm_irrefl_witness :
    1 ∈ (buildFaceAdjacency gTwoFaces).2 0 ∧ 0 ∈ (buildFaceAdjacency gTwoFaces).2 1 :=
  ⟨by decide, (buildFaceAdjacency_symm_irrefl gTwoFaces).1 1 0 (by decide)⟩

/-- Helper: the three vertex slots of a face all receive the written value. -/
theorem upd3_same (g : ℕ → ℝ) (f : ℕ) (v : ℝ) (j : ℕ) (hj : j < 3) :
    upd3 g f v (3 * f + j) = v := by
  unfold upd3
  interval_cases j
  · rw [Function.update_noteq (by omega), Function.update_noteq (by omega)]
    simp
  · rw [Function.update_noteq (by omega)]
    exact Function.update_same _ _ _
  · exact Function.update_same _ _ _

/-- Helper: writing face `f` does not touch the slots of another face. -/
theorem upd3_ne (g : ℕ → ℝ) (f : ℕ) (v : ℝ) (f' j : ℕ) (hj : j < 3) (hne : f' ≠ f) :
    upd3 g f v (3 * f' + j) = g (3 * f' + j) := by
  unfold upd3
  rw [Function.update_noteq (by omega), Function.update_noteq (by omega),
    Function.update_noteq (by omega)]

/-- Helper: the write pass leaves faces outside the processed list untouched. -/
theorem wavePass_not_mem (visited : ℕ → Option ℕ) :
    ∀ (l : List ℕ) (b : WaveBuffers) (f j : ℕ), j < 3 → f ∉ l →
      (wavePass visited l b).delays (3 * f + j) = b.delays (3 * f + j) ∧
      (wavePass visited l b).bursts (3 * f + j) = b.bursts (3 * f + j) := by
  intro l
  induction l with
  | nil => intro b f j hj hf; exact ⟨rfl, rfl⟩
  | cons g rest ih =>
    intro b f j hj hf
    have hfg : f ≠ g := fun h => hf (h ▸ List.mem_cons_self g rest)
    have hfr : f ∉ rest := fun h => hf (List.mem_cons_of_mem g h)
    cases hv : visited g with
    | none =>
      simp only [wavePass, hv]
      exact ih b f j hj hfr
    | some d =>
      simp only [wavePass, hv]
      have h2 := ih (writeFace b g d) f j hj hfr
      rw [h2.1, h2.2]
      unfold writeFace
      exact ⟨upd3_ne _ _ _ _ _ hj hfg, upd3_ne _ _ _ _ _ hj hfg⟩

/-- Helper: the write pass leaves unvisited faces untouched wherever they are. -/
theorem wavePass_none (visited : ℕ → Option ℕ) :
    ∀ (l : List ℕ) (b : WaveBuffers) (f j : ℕ), j < 3 → visited f = none →
      (wavePass visited l b).delays (3 * f + j) = b.delays (3 * f + j) ∧
      (wavePass visited l b).bursts (3 * f + j) = b.bursts (3 * f + j) := by
  intro l
  induction l with
  | nil => intro b f j hj hv; exact ⟨rfl, rfl⟩
  | cons g rest ih =>
    intro b f j hj hv
    cases hvg : visited g with
    | none =>
      simp only [wavePass, hvg]
      exact ih b f j hj hv
    | some d =>
      simp only [wavePass, hvg]
      have hfg : f ≠ g := fun h => by rw [h, hvg] at hv; cases hv
      have h2 := ih (writeFace b g d) f j hj hv
      rw [h2.1, h2.2]
      unfold writeFace
      exact ⟨upd3_ne _ _ _ _ _ hj hfg, upd3_ne _ _ _ _ _ hj hfg⟩

/-- Helper: a visited face processed by the write pass ends with
`delay = waveDelay d` and `weight = waveWeight d` in all three vertex slots. -/
theorem wavePass_visited_face (visited : ℕ → Option ℕ) :
    ∀ (l : List ℕ) (b : WaveBuffers) (f d j : ℕ), j < 3 → l.Nodup → f ∈ l →
      visited f = some d →
      (wavePass visited l b).delays (3 * f + j) = waveDelay d ∧
      (wavePass visited l b).bursts (3 * f + j) = waveWeight d := by
  intro l
  induction l with
  | nil => intro b f d j hj hnd hf hv; cases hf
  | cons g rest ih =>
    intro b f d j hj hnd hf hv
    rcases List.nodup_cons.mp hnd with ⟨hg, hndr⟩
    by_cases hfg : f = g
    · subst hfg
      simp only [wavePass, hv]
      have h2 := wavePass_not_mem visited rest (writeFace b f d) f j hj hg
      rw [h2.1, h2.2]
      unfold writeFace
      exact ⟨upd3_same _ _ _ _ hj, upd3_same _ _ _ _ hj⟩
    · have hfr : f ∈ rest := (List.mem_cons.mp hf).resolve_left hfg
      cases hvg : visited g with
      | none =>
        simp only [wavePass, hvg]
        exact ih b f d j hj hndr hfr hv
      | some e =>
        simp only [wavePass, hvg]
        exact ih (writeFace b g e) f d j hj hndr hfr hv

/-- Helper: a valid click reduces to the BFS plus the write pass over
freshly refilled buffers, and stamps the click time. -/
theorem onModelPointerDown_valid (s : ShatterState) (i : ℤ)
    (h0 : 0 ≤ i) (h1 : i < (s.faceCount : ℤ)) :
    onModelPointerDown s (some i) =
      { s with
        delays := (wavePass (runBfs s.adjacency 4 s.faceCount i.toNat)
          (List.range s.faceCount) filledBuffers).delays,
        bursts := (wavePass (runBfs s.adjacency 4 s.faceCount i.toNat)
          (List.range s.faceCount) filledBuffers).bursts,
        clickTime := s.uTime } := by
  unfold onModelPointerDown
  have hc : ¬(i < 0 ∨ (s.faceCount : ℤ) ≤ i) := by omega
  simp [hc]

/-- C10. In the state produced by `buildShatterWireGeometry` (buffers filled
with the sentinels) and after every click-triggered wave write, the three
vertices of each face carry identical `aDelay` values and identical `aBurstW`
values, so the per-vertex buffers always encode a well-defined per-face
`(delay, weight)` pair. -/
theorem shatter_buffers_face_constant :
    (∀ (g : Geometry) (t0 c0 : ℝ),
      FaceConstantBuffers (buildShatterWire g t0 c0).delays (buildShatterWire g t0 c0).bursts) ∧
    (∀ (s : ShatterState) (fi : Option ℤ),
      FaceConstantBuffers s.delays s.bursts →
      FaceConstantBuffers (onModelPointerDown s fi).delays (onModelPointerDown s fi).bursts) := by
  constructor
  · intro g t0 c0 f
    exact ⟨rfl, rfl, rfl, rfl⟩
  · intro s fi hfc
    cases fi with
    | none => exact hfc
    | some i =>
      by_cases hc : i < 0 ∨ (s.faceCount : ℤ) ≤ i
      · have : onModelPointerDown s (some i) = s := by
          unfold onModelPointerDown
          simp [hc]
        rw [this]
        exact hfc
      · rw [onModelPointerDown_valid s i (by omega) (by omega)]
        intro f
        set visited := runBfs s.adjacency 4 s.faceCount i.toNat with hv
        by_cases hf : f < s.faceCount
        · cases hvf : visited f with
          | some d =>
            have w0 := wavePass_visited_face visited (List.range s.faceCount) filledBuffers
              f d 0 (by omega) (List.nodup_range _) (List.mem_range.mpr hf) hvf
            have w1 := wavePass_visited_face visited (List.range s.faceCount) filledBuffers
              f d 1 (by omega) (List.nodup_range _) (List.mem_range.mpr hf) hvf
            have w2 := wavePass_visited_face visited (List.range s.faceCount) filledBuffers
              f d 2 (by omega) (List.nodup_range _) (List.mem_range.mpr hf) hvf
            exact ⟨w0.1.trans w1.1.symm, w1.1.trans w2.1.symm,
              w0.2.trans w1.2.symm, w1.2.trans w2.2.symm⟩
          | none =>
            have w0 := wavePass_none visited (List.range s.faceCount) filledBuffers
              f 0 (by omega) hvf
            have w1 := wavePass_none visited (List.range s.faceCount) filledBuffers
              f 1 (by omega) hvf
            have w2 := wavePass_none visited (List.range s.faceCount) filledBuffers
              f 2 (by omega) hvf
            exact ⟨w0.1.trans w1.1.symm, w1.1.trans w2.1.symm,
              w0.2.trans w1.2.symm, w1.2.trans w2.2.symm⟩
        · have hnm : f ∉ List.range s.faceCount := by
            simp only [List.mem_range]
            omega
          have w0 := wavePass_not_mem visited (List.range s.faceCount) filledBuffers
            f 0 (by omega) hnm
          have w1 := wavePass_not_mem visited (List.range s.faceCount) filledBuffers
            f 1 (by omega) hnm
          have w2 := wavePass_not_mem visited (List.range s.faceCount) filledBuffers
            f 2 (by omega) hnm
          exact ⟨w0.1.trans w1.1.symm, w1.1.trans w2.1.symm,
            w0.2.trans w1.2.symm, w1.2.trans w2.2.symm⟩

/-- Witness for C10: buffer face-constancy after a concrete click on the
three-face fan, obtained by feeding the freshly built state through the
click transition. -/
theorem shatter_buffers_face_constant_witness :
    FaceConstantBuffers
      (onModelPointerDown (buildShatterWire gSharedEdge3 0 0) (some 0)).delays
      (onModelPointerDown (buildShatterWire gSharedEdge3 0 0) (some 0)).bursts :=
  shatter_buffers_face_constant.2 _ _ (shatter_buffers_face_constant.1 gSharedEdge3 0 0)

/-- Counterexample to C1 as stated: clicking face 32768 of a 32769-face mesh
passes the range guard, but `queue[qt++] = 32768` wraps the id to −32768 in
the signed 16-bit queue, so the loop dequeues a negative index and the
handler throws after the sentinel refill.  The clicked face — reached at
depth 0 by the bounded BFS — is left with delay `1e9` and weight `0` instead
of the claimed `0 * 0.06 = 0` and `(1 - 0/5)^1.35 = 1`. -/
theorem onModelPointerDown16_int16_counterexample :
    (onModelPointerDown16 sBigMesh (some 32768)).2 = true ∧
    (onModelPointerDown16 sBigMesh (some 32768)).1.delays (3 * 32768) = 1e9 ∧
    (onModelPointerDown16 sBigMesh (some 32768)).1.bursts (3 * 32768) = 0 ∧
    waveDelayZ 0 = 0 ∧ (1e9 : ℝ) ≠ 0 ∧ waveWeightZ 0 = 1 ∧ (0 : ℝ) ≠ 1 := by
  refine ⟨rfl, rfl, rfl, by norm_num [waveDelayZ], by norm_num, ?_, by norm_num⟩
  simp [waveWeightZ]

/-- Helper: ids below 32768 survive the 16-bit truncation unchanged. -/
theorem toInt16_small (n : ℕ) (h : n < 32768) : toInt16 n = n := by
  unfold toInt16
  omega

/-- Helper: expansion never unmarks a face. -/
theorem bfsExpand16_mark_persist (d : ℤ) (hd : 0 ≤ d + 1) :
    ∀ (ns : List ℕ) (visited : ℕ → ℤ) (acc : List ℤ) (x : ℕ),
      0 ≤ visited x → 0 ≤ (bfsExpand16 d ns visited acc).1 x := by
  intro ns
  induction ns with
  | nil => intro visited acc x hx; exact hx
  | cons n ns ih =>
    intro visited acc x hx
    by_cases hv : visited n ≠ -1
    · simp only [bfsExpand16, if_pos hv]
      exact ih visited acc x hx
    · simp only [bfsExpand16, if_neg hv]
      apply ih
      rcases eq_or_ne x n with rfl | hne
      · rw [Function.update_same]
        exact hd
      · rw [Function.update_noteq hne]
        exact hx

/-- Helper: expansion from a depth with `d + 1 ≤ 4` keeps every recorded value
in `[-1, 4]`. -/
theorem bfsExpand16_range (d : ℤ) (hd : -1 ≤ d + 1) (hd4 : d + 1 ≤ 4) :
    ∀ (ns : List ℕ) (visited : ℕ → ℤ) (acc : List ℤ),
      (∀ x, -1 ≤ visited x ∧ visited x ≤ 4) →
      ∀ x, -1 ≤ (bfsExpand16 d ns visited acc).1 x ∧ (bfsExpand16 d ns visited acc).1 x ≤ 4 := by
  intro ns
  induction ns with
  | nil => intro visited acc hr x; exact hr x
  | cons n ns ih =>
    intro visited acc hr x
    by_cases hv : visited n ≠ -1
    · simp only [bfsExpand16, if_pos hv]
      exact ih visited acc hr x
    · simp only [bfsExpand16, if_neg hv]
      apply ih
      intro y
      rcases eq_or_ne y n with rfl | hne
      · rw [Function.update_same]
        exact ⟨hd, hd4⟩
      · rw [Function.update_noteq hne]
        exact hr y

/-- Helper: when the mesh fits 16 bits and the expanded neighbours are in
range, every queue entry produced by expansion is a valid, marked index. -/
theorem bfsExpand16_queue (fc : ℕ) (hfc : fc ≤ 32768) (d : ℤ) (hd : 0 ≤ d + 1) :
    ∀ (ns : List ℕ) (visited : ℕ → ℤ) (acc : List ℤ),
      (∀ n ∈ ns, n < fc) →
      (∀ q ∈ acc, 0 ≤ q ∧ q < (fc : ℤ) ∧ 0 ≤ visited q.toNat) →
      ∀ q ∈ (bfsExpand16 d ns visited acc).2,
        0 ≤ q ∧ q < (fc : ℤ) ∧ 0 ≤ (bfsExpand16 d ns visited acc).1 q.toNat := by
  intro ns
  induction ns with
  | nil => intro visited acc hns hacc q hq; exact hacc q hq
  | cons n ns ih =>
    intro visited acc hns hacc q hq
    have hn : n < fc := hns n (List.mem_cons_self n ns)
    by_cases hv : visited n ≠ -1
    · simp only [bfsExpand16, if_pos hv] at hq ⊢
      exact ih visited acc (fun m hm => hns m (List.mem_cons_of_mem n hm)) hacc q hq
    · simp only [bfsExpand16, if_neg hv] at hq ⊢
      refine ih _ _ (fun m hm => hns m (List.mem_cons_of_mem n hm)) ?_ q hq
      intro p hp
      rcases List.mem_append.mp hp with hp | hp
      · obtain ⟨h1, h2, h3⟩ := hacc p hp
        refine ⟨h1, h2, ?_⟩
        rcases eq_or_ne p.toNat n with he | hne
        · rw [he, Function.update_same]
          exact hd
        · rw [Function.update_noteq hne]
          exact h3
      · have hp2 : p = toInt16 n := List.mem_singleton.mp hp
        rw [hp2, toInt16_small n (by omega)]
        refine ⟨by omega, by omega, ?_⟩
        rw [Int.toNat_natCast, Function.update_same]
        exact hd

/-- Helper: with a 16-bit-clean mesh, the queue loop never throws and every
recorded value stays in `[-1, 4]`. -/
theorem bfsLoop16_ok (adj : ℕ → List ℕ) (fc : ℕ) (hfc : fc ≤ 32768)
    (hadj : ∀ f, f < fc → ∀ n ∈ adj f, n < fc) :
    ∀ (fuel : ℕ) (q : List ℤ) (visited : ℕ → ℤ),
      (∀ p ∈ q, 0 ≤ p ∧ p < (fc : ℤ) ∧ 0 ≤ visited p.toNat) →
      (∀ x, -1 ≤ visited x ∧ visited x ≤ 4) →
      ∃ v, bfsLoop16 adj fc 4 fuel q visited = some v ∧ ∀ x, -1 ≤ v x ∧ v x ≤ 4 := by
  intro fuel
  induction fuel with
  | zero => intro q visited hq hr; exact ⟨visited, rfl, hr⟩
  | succ m ih =>
    intro q visited hq hr
    cases q with
    | nil => exact ⟨visited, rfl, hr⟩
    | cons f rest =>
      obtain ⟨hf0, hffc, hfmark⟩ := hq f (List.mem_cons_self f rest)
      have hcond : 0 ≤ f ∧ f < (fc : ℤ) := ⟨hf0, hffc⟩
      have hrest : ∀ p ∈ rest, 0 ≤ p ∧ p < (fc : ℤ) ∧ 0 ≤ visited p.toNat :=
        fun p hp => hq p (List.mem_cons_of_mem f hp)
      by_cases hK : (4 : ℤ) ≤ visited f.toNat
      · simp only [bfsLoop16, if_pos hcond, if_pos hK]
        exact ih rest visited hrest hr
      · simp only [bfsLoop16, if_pos hcond, if_neg hK]
        have hd4 : visited f.toNat < 4 := not_le.mp hK
        have hneigh : ∀ n ∈ adj f.toNat, n < fc := hadj f.toNat (by omega)
        refine ih _ _ ?_ ?_
        · intro p hp
          rcases List.mem_append.mp hp with hp | hp
          · obtain ⟨h1, h2, h3⟩ := hrest p hp
            exact ⟨h1, h2, bfsExpand16_mark_persist _ (by omega) _ _ _ _ h3⟩
          · exact bfsExpand16_queue fc hfc _ (by omega) _ _ _ hneigh
              (fun p2 hp2 => absurd hp2 (List.not_mem_nil p2)) p hp
        · exact bfsExpand16_range _ (by omega) (by omega) _ _ _ hr

/-- Helper: on a 16-bit-clean mesh the click BFS completes without throwing,
with all recorded values in `[-1, 4]`. -/
theorem runBfs16_ok (adj : ℕ → List ℕ) (fc start : ℕ) (hfc : fc ≤ 32768)
    (hstart : start < fc) (hadj : ∀ f, f < fc → ∀ n ∈ adj f, n < fc) :
    ∃ v, runBfs16 adj 4 fc start = some v ∧ ∀ x, -1 ≤ v x ∧ v x ≤ 4 := by
  unfold runBfs16
  refine bfsLoop16_ok adj fc hfc hadj fc _ _ ?_ ?_
  · intro p hp
    have hp2 : p = toInt16 start := List.mem_singleton.mp hp
    rw [hp2, toInt16_small start (by omega)]
    refine ⟨by omega, by omega, ?_⟩
    rw [Int.toNat_natCast, Function.update_same]
  · intro x
    rcases eq_or_ne x start with rfl | hne
    · rw [Function.update_same]
      constructor <;> norm_num
    · rw [Function.update_noteq hne]
      constructor <;> norm_num

/-- Helper: the 16-bit write pass leaves faces outside the processed list
untouched. -/
theorem wavePass16_not_mem (visited : ℕ → ℤ) :
    ∀ (l : List ℕ) (b : WaveBuffers) (f j : ℕ), j < 3 → f ∉ l →
      (wavePass16 visited l b).delays (3 * f + j) = b.delays (3 * f + j) ∧
      (wavePass16 visited l b).bursts (3 * f + j) = b.bursts (3 * f + j) := by
  intro l
  induction l with
  | nil => intro b f j hj hf; exact ⟨rfl, rfl⟩
  | cons g rest ih =>
    intro b f j hj hf
    have hfg : f ≠ g := fun h => hf (h ▸ List.mem_cons_self g rest)
    have hfr : f ∉ rest := fun h => hf (List.mem_cons_of_mem g h)
    by_cases hv : visited g = -1
    · simp only [wavePass16, if_pos hv]
      exact ih b f j hj hfr
    · simp only [wavePass16, if_neg hv]
      have h2 := ih (writeFace16 b g (visited g)) f j hj hfr
      rw [h2.1, h2.2]
      unfold writeFace16
      exact ⟨upd3_ne _ _ _ _ _ hj hfg, upd3_ne _ _ _ _ _ hj hfg⟩

/-- Helper: the 16-bit write pass skips unreached (`-1`) faces everywhere. -/
theorem wavePass16_unreached (visited : ℕ → ℤ) :
    ∀ (l : List ℕ) (b : WaveBuffers) (f j : ℕ), j < 3 → visited f = -1 →
      (wavePass16 visited l b).delays (3 * f + j) = b.delays (3 * f + j) ∧
      (wavePass16 visited l b).bursts (3 * f + j) = b.bursts (3 * f + j) := by
  intro l
  induction l with
  | nil => intro b f j hj hv; exact ⟨rfl, rfl⟩
  | cons g rest ih =>
    intro b f j hj hv
    by_cases hvg : visited g = -1
    · simp only [wavePass16, if_pos hvg]
      exact ih b f j hj hv
    · simp only [wavePass16, if_neg hvg]
      have hfg : f ≠ g := fun h => hvg (h ▸ hv)
      have h2 := ih (writeFace16 b g (visited g)) f j hj hv
      rw [h2.1, h2.2]
      unfold writeFace16
      exact ⟨upd3_ne _ _ _ _ _ hj hfg, upd3_ne _ _ _ _ _ hj hfg⟩

/-- Helper: a reached face processed by the 16-bit write pass ends with
`waveDelayZ`/`waveWeightZ` of its recorded depth in all three vertex slots. -/
theorem wavePass16_written (visited : ℕ → ℤ) :
    ∀ (l : List ℕ) (b : WaveBuffers) (f j : ℕ), j < 3 → l.Nodup → f ∈ l →
      visited f ≠ -1 →
      (wavePass16 visited l b).delays (3 * f + j) = waveDelayZ (visited f) ∧
      (wavePass16 visited l b).bursts (3 * f + j) = waveWeightZ (visited f) := by
  intro l
  induction l with
  | nil => intro b f j hj hnd hf hv; cases hf
  | cons g rest ih =>
    intro b f j hj hnd hf hv
    rcases List.nodup_cons.mp hnd with ⟨hg, hndr⟩
    by_cases hfg : f = g
    · subst hfg
      simp only [wavePass16, if_neg hv]
      have h2 := wavePass16_not_mem visited rest (writeFace16 b f (visited f)) f j hj hg
      rw [h2.1, h2.2]
      unfold writeFace16
      exact ⟨upd3_same _ _ _ _ hj, upd3_same _ _ _ _ hj⟩
    · have hfr : f ∈ rest := (List.mem_cons.mp hf).resolve_left hfg
      by_cases hvg : visited g = -1
      · simp only [wavePass16, if_pos hvg]
        exact ih b f j hj hndr hfr hv
      · simp only [wavePass16, if_neg hvg]
        exact ih (writeFace16 b g (visited g)) f j hj hndr hfr hv

/-- Helper: the wave delay is monotone in the recorded depth. -/
theorem waveDelayZ_mono (d e : ℤ) (_hd : 0 ≤ d) (h : d ≤ e) :
    waveDelayZ d ≤ waveDelayZ e := by
  unfold waveDelayZ
  have hde : (d : ℝ) ≤ (e : ℝ) := by exact_mod_cast h
  nlinarith

/-- Helper: the wave weight is strictly decreasing in the recorded depth on
depths `0..4`. -/
theorem waveWeightZ_strictAnti (d e : ℤ) (_hd : 0 ≤ d) (hde : d < e) (he : e ≤ 4) :
    waveWeightZ e < waveWeightZ d := by
  unfold waveWeightZ
  have he5 : (e : ℝ) ≤ 4 := by exact_mod_cast he
  have hde5 : (d : ℝ) < e := by exact_mod_cast hde
  have h1 : (0 : ℝ) ≤ 1 - (e : ℝ) / (4 + 1) := by
    have : (e : ℝ) / (4 + 1) ≤ 1 := by
      rw [div_le_one (by norm_num)]
      linarith
    linarith
  have h2 : 1 - (e : ℝ) / (4 + 1) < 1 - (d : ℝ) / (4 + 1) := by
    have : (d : ℝ) / (4 + 1) < (e : ℝ) / (4 + 1) :=
      (div_lt_div_iff_of_pos_right (by norm_num)).mpr hde5
    linarith
  exact Real.rpow_lt_rpow h1 h2 (by norm_num)

/-- C1 (amended).  On a mesh whose face count fits the signed 16-bit BFS
queue (at most 32768 faces) and whose neighbour lists stay in range, a valid
click never throws: the bounded BFS (`K = 4` rings, step 0.06 s) completes,
every face it reaches (recorded depth `≥ 0`, always `≤ 4`) has all three of
its vertex slots written `delay = depth * 0.06` and
`weight = (1 - depth/(K+1))^1.35`, every unreached face (recorded `-1`) keeps
the sentinel delay `1e9` and weight exactly `0`, and as the depth increases
from 0 to `K` the delay is non-decreasing and the weight strictly decreasing.
(For larger meshes an enqueued id wraps negative and the handler throws after
the sentinel refill — see the counterexample above.) -/
theorem onModelPointerDown16_wave_write (s : ShatterState) (i : ℤ)
    (h0 : 0 ≤ i) (h1 : i < (s.faceCount : ℤ)) (hfc : s.faceCount ≤ 32768)
    (hadj : ∀ f, f < s.faceCount → ∀ n ∈ s.adjacency f, n < s.faceCount) :
    (onModelPointerDown16 s (some i)).2 = false ∧
    (∀ v, runBfs16 s.adjacency 4 s.faceCount i.toNat = some v →
      ∀ f, f < s.faceCount →
        (0 ≤ v f → v f ≤ 4 ∧ ∀ j, j < 3 →
          (onModelPointerDown16 s (some i)).1.delays (3 * f + j) = waveDelayZ (v f) ∧
          (onModelPointerDown16 s (some i)).1.bursts (3 * f + j) = waveWeightZ (v f)) ∧
        (v f = -1 → ∀ j, j < 3 →
          (onModelPointerDown16 s (some i)).1.delays (3 * f + j) = 1e9 ∧
          (onModelPointerDown16 s (some i)).1.bursts (3 * f + j) = 0)) ∧
    (∀ d e : ℤ, 0 ≤ d → d ≤ e → waveDelayZ d ≤ waveDelayZ e) ∧
    (∀ d e : ℤ, 0 ≤ d → d < e → e ≤ 4 → waveWeightZ e < waveWeightZ d) := by
  obtain ⟨v0, hv0, hr0⟩ := runBfs16_ok s.adjacency s.faceCount i.toNat hfc (by omega) hadj
  have hc : ¬(i < 0 ∨ (s.faceCount : ℤ) ≤ i) := by omega
  have hred : onModelPointerDown16 s (some i) =
      ({ s with
          delays := (wavePass16 v0 (List.range s.faceCount) filledBuffers).delays,
          bursts := (wavePass16 v0 (List.range s.faceCount) filledBuffers).bursts,
          clickTime := s.uTime }, false) := by
    unfold onModelPointerDown16
    simp [hc, hv0]
  refine ⟨by rw [hred], ?_, waveDelayZ_mono, waveWeightZ_strictAnti⟩
  intro v hv f hf
  have hvv : v = v0 := by
    rw [hv0] at hv
    exact (Option.some.inj hv).symm
  subst hvv
  constructor
  · intro hge
    refine ⟨(hr0 f).2, ?_⟩
    intro j hj
    have hw := wavePass16_written v (List.range s.faceCount) filledBuffers f j hj
      (List.nodup_range _) (List.mem_range.mpr hf) (by omega)
    rw [hred]
    exact hw
  · intro hm1 j hj
    have hw := wavePass16_unreached v (List.range s.faceCount) filledBuffers f j hj hm1
    rw [hred]
    exact ⟨hw.1, hw.2⟩

/-- Witness for amended C1: clicking face 0 of the two-face mesh completes
without throwing, and the depth-0 delay is at most the depth-1 delay. -/
theorem onModelPointerDown16_wave_write_witness :
    (onModelPointerDown16 (buildShatterWire gTwoFaces 0 0) (some 0)).2 = false ∧
    waveDelayZ 0 ≤ waveDelayZ 1 := by
  have H := onModelPointerDown16_wave_write (buildShatterWire gTwoFaces 0 0) 0
    (by decide) (by decide) (by decide) (by decide)
  exact ⟨H.1, H.2.2.1 0 1 (by norm_num) (by norm_num)⟩

end PortfolioSite
